import Mathlib

/-!
Verification of the event-gateway component of the repository
(`src/server/ws-gateway.js`) against its specification.

The gateway sits between WebSocket clients and a backend that serves one
SSE-style event stream per chat session.  We shallowly embed:

* the frame-boundary scanner `parseSSEFrames` (splitting a text buffer at
  blank lines) and the per-frame decoder `parseFrame`;
* the per-connection subscription state machine (`attachSSE`'s synchronous
  registration, `subscribeMany`, the `message` and `close` handlers, and the
  `finally`-block cleanup of a terminated pump), with an explicit event
  trace recording cancellations, starts, and table deletions;
* a small model of JavaScript JSON values for the inbound control protocol.

Strings are modelled as `List Char`; chat ids as `String`.  `JSON.parse` of
frame payloads is a platform builtin, so `parseFrame` is parameterised over
an arbitrary decoder `List Char → Option α`, a frame being dropped exactly
when the decoder returns `none` (the code's `catch { return null }`).
-/

namespace Gateway

/-! ## Frame boundary scanner (`parseSSEFrames`, ws-gateway.js lines 7-16)

`buffer.indexOf('\n\n')` finds the first blank-line boundary;
`splitAtBoundary` returns the prefix before and the suffix after it. -/

def splitAtBoundary : List Char → Option (List Char × List Char)
  | [] => none
  | [_] => none
  | a :: b :: rest =>
    if a = '\n' ∧ b = '\n' then some ([], rest)
    else
      match splitAtBoundary (b :: rest) with
      | none => none
      | some (f, r) => (some (a :: f, r))

theorem splitAtBoundary_length {l f r : List Char}
    (h : splitAtBoundary l = some (f, r)) :
    l.length = f.length + r.length + 2 := by
  induction l generalizing f r with
  | nil => simp [splitAtBoundary] at h
  | cons a tl ih =>
    cases tl with
    | nil => simp [splitAtBoundary] at h
    | cons b tl2 =>
      rw [splitAtBoundary] at h
      split_ifs at h with hab
      · simp only [Option.some.injEq, Prod.mk.injEq] at h
        obtain ⟨hf, hr⟩ := h
        subst hf; subst hr; simp
      · cases hs : splitAtBoundary (b :: tl2) with
        | none => rw [hs] at h; simp at h
        | some p =>
          obtain ⟨f2, r2⟩ := p
          rw [hs] at h
          simp only [Option.some.injEq, Prod.mk.injEq] at h
          obtain ⟨hf, hr⟩ := h
          subst hf; subst hr
          have := ih hs
          simp at this ⊢
          omega

theorem splitAtBoundary_append {u f r : List Char} (v : List Char)
    (h : splitAtBoundary u = some (f, r)) :
    splitAtBoundary (u ++ v) = some (f, r ++ v) := by
  induction u generalizing f r with
  | nil => simp [splitAtBoundary] at h
  | cons a tl ih =>
    cases tl with
    | nil => simp [splitAtBoundary] at h
    | cons b tl2 =>
      rw [splitAtBoundary] at h
      rw [List.cons_append, List.cons_append, splitAtBoundary]
      split_ifs at h ⊢ with hab
      · simp only [Option.some.injEq, Prod.mk.injEq] at h
        obtain ⟨hf, hr⟩ := h
        subst hf; subst hr; rfl
      · cases hs : splitAtBoundary (b :: tl2) with
        | none => rw [hs] at h; simp at h
        | some p =>
          obtain ⟨f2, r2⟩ := p
          rw [hs] at h
          simp only [Option.some.injEq, Prod.mk.injEq] at h
          obtain ⟨hf, hr⟩ := h
          subst hf; subst hr
          have := ih hs
          rw [← List.cons_append, this]

/-- The `while ((idx = buffer.indexOf('\n\n')) !== -1)` loop of
`parseSSEFrames`.  Each iteration consumes at least two characters of the
buffer, so `buffer.length` bounds the number of iterations; the fuel
argument makes the loop structurally recursive and hence executable by
`decide`. -/
def parseLoop : Nat → List Char → List (List Char) × List Char
  | 0, buf => ([], buf)
  | fuel + 1, buf =>
    match splitAtBoundary buf with
    | none => ([], buf)
    | some (f, r) =>
      let p := parseLoop fuel r
      (f :: p.1, p.2)

/-- The function `parseSSEFrames(buffer)`: repeatedly extract the prefix before the first
blank line; return all extracted frames and the unconsumed remainder. -/
def parseSSEFrames (buf : List Char) : List (List Char) × List Char :=
  parseLoop buf.length buf

theorem parseLoop_fuel_irrelevant :
    ∀ (f1 f2 : Nat) (buf : List Char), buf.length ≤ f1 → buf.length ≤ f2 →
    parseLoop f1 buf = parseLoop f2 buf := by
  intro f1
  induction f1 with
  | zero =>
    intro f2 buf h1 _
    have hb : buf = [] := List.length_eq_zero.mp (Nat.le_zero.mp h1)
    subst hb
    cases f2 with
    | zero => rfl
    | succ m => rw [parseLoop, parseLoop]; rfl
  | succ n ih =>
    intro f2 buf h1 h2
    cases f2 with
    | zero =>
      have hb : buf = [] := List.length_eq_zero.mp (Nat.le_zero.mp h2)
      subst hb
      rw [parseLoop, parseLoop]; rfl
    | succ m =>
      rw [parseLoop, parseLoop]
      cases hs : splitAtBoundary buf with
      | none => rfl
      | some p =>
        obtain ⟨f, r⟩ := p
        have hlen := splitAtBoundary_length hs
        have := ih m r (by omega) (by omega)
        simp only [this]

theorem parseLoop_fuel {fuel : Nat} {buf : List Char} (h : buf.length ≤ fuel) :
    parseLoop fuel buf = parseSSEFrames buf :=
  parseLoop_fuel_irrelevant fuel buf.length buf h le_rfl

/-- One-step unfolding of the extraction loop: `parseSSEFrames` peels the
frame before the first blank-line boundary and recurses on the suffix. -/
theorem parseSSEFrames_eq (buf : List Char) :
    parseSSEFrames buf =
      match splitAtBoundary buf with
      | none => ([], buf)
      | some (f, r) => (f :: (parseSSEFrames r).1, (parseSSEFrames r).2) := by
  cases hs : splitAtBoundary buf with
  | none =>
    cases buf with
    | nil => rfl
    | cons a tl =>
      show parseLoop (a :: tl).length (a :: tl) = _
      rw [List.length_cons, parseLoop, hs]
  | some p =>
    obtain ⟨f, r⟩ := p
    have hlen := splitAtBoundary_length hs
    show parseLoop buf.length buf = _
    have hsucc : buf.length = (f.length + r.length + 1) + 1 := by omega
    rw [hsucc, parseLoop, hs]
    have : parseLoop (f.length + r.length + 1) r = parseSSEFrames r :=
      parseLoop_fuel (by omega)
    simp only [this]

/-- The remainder returned by the loop contains no blank-line boundary. -/
theorem parse_rest_none (buf : List Char) :
    splitAtBoundary (parseSSEFrames buf).2 = none := by
  suffices h : ∀ (n : Nat) (b : List Char), b.length ≤ n →
      splitAtBoundary (parseSSEFrames b).2 = none from
    h buf.length buf le_rfl
  intro n
  induction n with
  | zero =>
    intro b hb
    have : b = [] := List.length_eq_zero.mp (Nat.le_zero.mp hb)
    subst this; rfl
  | succ n ih =>
    intro b hb
    rw [parseSSEFrames_eq]
    cases hs : splitAtBoundary b with
    | none => exact hs
    | some p =>
      obtain ⟨f, r⟩ := p
      have hlen := splitAtBoundary_length hs
      exact ih r (by omega)

/-- Parsing a concatenation first extracts the frames of the prefix, then
continues on the (boundary-free) remainder glued to the suffix.  This is the
key compositionality fact behind chunking invariance. -/
theorem parse_append (u v : List Char) :
    parseSSEFrames (u ++ v)
      = ((parseSSEFrames u).1 ++ (parseSSEFrames ((parseSSEFrames u).2 ++ v)).1,
         (parseSSEFrames ((parseSSEFrames u).2 ++ v)).2) := by
  suffices h : ∀ (n : Nat) (u : List Char), u.length ≤ n → ∀ (v : List Char),
      parseSSEFrames (u ++ v)
        = ((parseSSEFrames u).1 ++ (parseSSEFrames ((parseSSEFrames u).2 ++ v)).1,
           (parseSSEFrames ((parseSSEFrames u).2 ++ v)).2) from
    h u.length u le_rfl v
  intro n
  induction n with
  | zero =>
    intro u hu v
    have : u = [] := List.length_eq_zero.mp (Nat.le_zero.mp hu)
    subst this
    simp [parseSSEFrames, parseLoop]
  | succ n ih =>
    intro u hu v
    cases hs : splitAtBoundary u with
    | none =>
      rw [parseSSEFrames_eq u, hs]
      simp
    | some p =>
      obtain ⟨f, r⟩ := p
      have hb := splitAtBoundary_append v hs
      have hlen := splitAtBoundary_length hs
      rw [parseSSEFrames_eq (u ++ v), hb, parseSSEFrames_eq u, hs]
      simp only
      rw [ih r (by omega) v]
      simp

/-- The incremental loop of `attachSSE` (ws-gateway.js lines 44-47): on each
chunk, append it to the carried buffer, extract all complete frames, and
carry the remainder to the next chunk. -/
def feedChunks : List (List Char) → List Char → List (List Char) × List Char
  | [], buf => ([], buf)
  | c :: cs, buf =>
    let p := parseSSEFrames (buf ++ c)
    let q := feedChunks cs p.2
    (p.1 ++ q.1, q.2)

theorem feedChunks_eq (cs : List (List Char)) (buf : List Char)
    (h : splitAtBoundary buf = none) :
    feedChunks cs buf = parseSSEFrames (buf ++ cs.flatten) := by
  induction cs generalizing buf with
  | nil =>
    rw [feedChunks, List.flatten_nil, List.append_nil, parseSSEFrames_eq, h]
  | cons c cs ih =>
    have hstep : feedChunks (c :: cs) buf
        = ((parseSSEFrames (buf ++ c)).1
            ++ (feedChunks cs (parseSSEFrames (buf ++ c)).2).1,
           (feedChunks cs (parseSSEFrames (buf ++ c)).2).2) := rfl
    rw [hstep, ih _ (parse_rest_none _), List.flatten_cons, ← List.append_assoc,
      parse_append (buf ++ c) cs.flatten]

/-- A sequence encoding the given frames in order, each frame terminated by a
blank line. -/
def encodeFrames (fs : List (List Char)) : List Char :=
  (fs.map (fun f => f ++ ['\n', '\n'])).flatten

/-- A well-formed frame body (no internal boundary, not ending in a line
terminator) followed by its blank-line terminator and a suffix splits exactly
at the terminator. -/
theorem splitAtBoundary_encode {f : List Char} (t : List Char)
    (h : splitAtBoundary (f ++ ['\n']) = none) :
    splitAtBoundary (f ++ '\n' :: '\n' :: t) = some (f, t) := by
  induction f with
  | nil => simp [splitAtBoundary]
  | cons a f' ih =>
    cases f' with
    | nil =>
      have ha : ¬ (a = '\n') := by
        intro hEq
        subst hEq
        simp [splitAtBoundary] at h
      simp only [List.cons_append, List.nil_append, splitAtBoundary]
      rw [if_neg (by simp [ha])]
      rfl
    | cons b f'' =>
      rw [List.cons_append, List.cons_append, splitAtBoundary] at h
      rw [List.cons_append, List.cons_append, splitAtBoundary]
      split_ifs at h ⊢ with hab
      cases hs : splitAtBoundary (b :: f'' ++ ['\n']) with
        | none =>
          have hrec := ih hs
          rw [List.cons_append] at hs
          rw [List.cons_append] at hrec
          rw [hrec]
        | some p =>
          rw [List.cons_append] at hs
          rw [hs] at h
          obtain ⟨f2, r2⟩ := p
          simp at h

/-- Parsing a well-formed encoding of frames yields exactly those frames and
an empty remainder. -/
theorem parse_encode : ∀ fs : List (List Char),
    (∀ f ∈ fs, splitAtBoundary (f ++ ['\n']) = none) →
    parseSSEFrames (encodeFrames fs) = (fs, []) := by
  intro fs
  induction fs with
  | nil => intro _; rfl
  | cons f fs ih =>
    intro h
    have henc : encodeFrames (f :: fs) = f ++ '\n' :: '\n' :: encodeFrames fs := by
      simp [encodeFrames]
    rw [henc, parseSSEFrames_eq,
      splitAtBoundary_encode (encodeFrames fs) (h f (by simp))]
    show (f :: (parseSSEFrames (encodeFrames fs)).1,
          (parseSSEFrames (encodeFrames fs)).2) = (f :: fs, [])
    rw [ih (fun g hg => h g (by simp [hg]))]

/-- C1: for every sequence encoding N well-formed frames and every way of
splitting that sequence into successive chunks, feeding the chunks one at a
time through `parseSSEFrames` — accumulating the remainder buffer between
calls, starting from an empty buffer, exactly as `attachSSE`'s read loop
does — produces exactly those N frames in order, regardless of where the
splits fall (mid-marker, mid-field, or exactly on a frame boundary). -/
theorem C1_chunking_invariance (fs cs : List (List Char))
    (hwf : ∀ f ∈ fs, splitAtBoundary (f ++ ['\n']) = none)
    (henc : cs.flatten = encodeFrames fs) :
    feedChunks cs [] = (fs, []) := by
  rw [feedChunks_eq cs [] rfl, List.nil_append, henc, parse_encode fs hwf]

/-- Witness for C1: the two frames of the spec's end-to-end scenario are
recovered from a chunking that splits inside a field and in the middle of a
blank-line boundary. -/
theorem C1_witness :
    feedChunks [['h', 'i', '\n'], ['\n', 'y'], ['o', '\n', '\n']] []
      = ([['h', 'i'], ['y', 'o']], []) :=
  C1_chunking_invariance [['h', 'i'], ['y', 'o']]
    [['h', 'i', '\n'], ['\n', 'y'], ['o', '\n', '\n']]
    (by decide) (by decide)

/-! ## Frame field decoder (`parseFrame`, ws-gateway.js lines 18-32) -/

/-- The whitespace characters removed by JavaScript's `String.trim` that can
occur in this wire format (split lines never contain `'\n'`, but the class
is kept faithful to `trim`'s ASCII behaviour). -/
def isJsWhitespace (c : Char) : Bool :=
  c = ' ' || c = '\t' || c = '\n' || c = '\r' || c = '\x0b' || c = '\x0c'

/-- JavaScript `String.prototype.trim`: strip leading and trailing whitespace. -/
def jsTrim (l : List Char) : List Char :=
  ((l.dropWhile isJsWhitespace).reverse.dropWhile isJsWhitespace).reverse

/-- The line split `frame.split('\n')`. -/
def splitOnNl : List Char → List (List Char)
  | [] => [[]]
  | c :: rest =>
    if c = '\n' then [] :: splitOnNl rest
    else
      match splitOnNl rest with
      | [] => [[c]]
      | l :: ls => (c :: l) :: ls

def eventMarker : List Char := ['e', 'v', 'e', 'n', 't', ':']

def dataMarker : List Char := ['d', 'a', 't', 'a', ':']

/-- The `for (const line of lines)` loop of `parseFrame`, threading the
`event` and `data` accumulators: a line starting with `event:` replaces the
event name with its trimmed content, a line starting with `data:` appends
its trimmed content to the data string. -/
def processLines : List (List Char) → List Char → List Char → List Char × List Char
  | [], ev, da => (ev, da)
  | line :: rest, ev, da =>
    let ev' := if eventMarker.isPrefixOf line then jsTrim (line.drop 6) else ev
    let da' := if dataMarker.isPrefixOf line then da ++ jsTrim (line.drop 5) else da
    processLines rest ev' da'

def defaultEventName : List Char := ['m', 'e', 's', 's', 'a', 'g', 'e']

/-- The raw data string accumulated for a frame text (the `data` variable of
`parseFrame` just before `JSON.parse`). -/
def rawData (frame : List Char) : List Char :=
  (processLines (splitOnNl frame) defaultEventName []).2

structure Frame (α : Type) where
  event : List Char
  payload : α
deriving DecidableEq

/-- The function `parseFrame(frame)`.  Here `decode` stands for the platform's `JSON.parse`:
it returns `none` exactly when `JSON.parse` throws, which the code turns
into a `null` result; an empty data string is also rejected
(`if (!data) return null`). -/
def parseFrame {α : Type} (decode : List Char → Option α) (frame : List Char) :
    Option (Frame α) :=
  let p := processLines (splitOnNl frame) defaultEventName []
  if p.2 = [] then none
  else
    match decode p.2 with
    | none => none
    | some v => some ⟨p.1, v⟩

/-- The outbound unit written back to the client
(`{ type: 'event', chatId, event, payload }`). -/
structure Envelope (α : Type) where
  chatId : List Char
  event : List Char
  payload : α
deriving DecidableEq

/-- The `for (const frame of parsed.frames)` loop of `attachSSE`
(lines 48-51): frames whose `parseFrame` is `null` are skipped
(`if (!evt) continue`), every other frame is forwarded as one envelope. -/
def framesToEnvelopes {α : Type} (decode : List Char → Option α)
    (cid : List Char) (frames : List (List Char)) : List (Envelope α) :=
  frames.filterMap fun f =>
    (parseFrame decode f).map fun e => ⟨cid, e.event, e.payload⟩

/-- C8: a frame whose concatenated raw data string is empty, and a frame
whose raw data string the payload decoder rejects (invalid JSON), produce no
`Frame` and no envelope: dropping the frame is silent and the surrounding
frames before and after it are processed exactly as if it were absent. -/
theorem C8_invalid_frames_dropped {α : Type} (decode : List Char → Option α)
    (f : List Char)
    (h : rawData f = [] ∨ decode (rawData f) = none) :
    parseFrame decode f = none ∧
    ∀ (cid : List Char) (pre post : List (List Char)),
      framesToEnvelopes decode cid (pre ++ f :: post)
        = framesToEnvelopes decode cid (pre ++ post) := by
  have hnone : parseFrame decode f = none := by
    rw [parseFrame]
    rw [show (processLines (splitOnNl f) defaultEventName []).2 = rawData f
      from rfl]
    cases h with
    | inl he => rw [if_pos he]
    | inr hd =>
      split_ifs with hemp
      · rfl
      · rw [hd]
  refine ⟨hnone, fun cid pre post => ?_⟩
  simp only [framesToEnvelopes, List.filterMap_append, List.filterMap_cons,
    hnone, Option.map_none']

def decodeC8 : List Char → Option Nat :=
  fun l => if l = ['1'] then some 1 else none

/-- Witness for C8: in a stream of three frames whose middle frame has
malformed data, exactly the two well-formed frames produce envelopes and
processing continues past the dropped frame. -/
theorem C8_witness :
    parseFrame decodeC8 ['d', 'a', 't', 'a', ':', 'x'] = none ∧
    framesToEnvelopes decodeC8 ['a']
        ([['d', 'a', 't', 'a', ':', '1']] ++ ['d', 'a', 't', 'a', ':', 'x']
          :: [['d', 'a', 't', 'a', ':', '1']])
      = framesToEnvelopes decodeC8 ['a']
          ([['d', 'a', 't', 'a', ':', '1']] ++ [['d', 'a', 't', 'a', ':', '1']]) := by
  have h := C8_invalid_frames_dropped decodeC8 ['d', 'a', 't', 'a', ':', 'x']
    (Or.inr (by decide))
  exact ⟨h.1, h.2 ['a'] [['d', 'a', 't', 'a', ':', '1']] [['d', 'a', 't', 'a', ':', '1']]⟩

/-- The trimmed contents of the `data:`-marked lines of a frame, in
encounter order. -/
def dataSegments (frame : List Char) : List (List Char) :=
  ((splitOnNl frame).filter fun l => dataMarker.isPrefixOf l).map
    fun l => jsTrim (l.drop 5)

theorem processLines_data (ls : List (List Char)) :
    ∀ (ev da : List Char),
    (processLines ls ev da).2
      = da ++ ((ls.filter fun l => dataMarker.isPrefixOf l).map
          fun l => jsTrim (l.drop 5)).flatten := by
  induction ls with
  | nil => intro ev da; simp [processLines]
  | cons line rest ih =>
    intro ev da
    rw [processLines]
    by_cases hd : dataMarker.isPrefixOf line
    · rw [if_pos hd, ih, List.filter_cons_of_pos hd, List.map_cons,
        List.flatten_cons, List.append_assoc]
    · rw [if_neg hd, ih, List.filter_cons_of_neg hd]

/-- C10: the raw data string handed to the payload decoder is exactly the
concatenation, in encounter order and with no separator, of the trimmed
contents of the frame's `data:`-marked lines. -/
theorem C10_data_concatenation (frame : List Char) :
    rawData frame = (dataSegments frame).flatten := by
  rw [rawData, dataSegments, processLines_data, List.nil_append]

/-! ## JavaScript JSON values (inbound control messages)

`JSON.parse` of an inbound message yields a JavaScript value; the handler
inspects `msg.type`, `msg.chatId`, `msg.chatIds` and `msg.replay`.  Numbers
are restricted to integers; none of the gateway's control paths depend on
fractional values. -/

inductive JVal where
  | jnull : JVal
  | jbool : Bool → JVal
  | jnum : Int → JVal
  | jstr : String → JVal
  | jarr : List JVal → JVal
  | jobj : List (String × JVal) → JVal

/-- Field lookup in a parsed JSON object: `JSON.parse` keeps the last
occurrence of a duplicated key. -/
def lookupLast (fs : List (String × JVal)) (k : String) : Option JVal :=
  fs.foldl (fun acc p => if p.1 = k then some p.2 else acc) none

/-- Property access `v.k` on a non-`null` value: an object yields the field
(or `undefined`, modelled as `none`); every other non-`null` value has no
own properties, so access yields `undefined`. -/
def jsFieldD : JVal → String → Option JVal
  | .jobj fs, k => lookupLast fs k
  | _, _ => none

/-- JavaScript truthiness of a JSON value. -/
def jsTruthy : JVal → Bool
  | .jnull => false
  | .jbool b => b
  | .jnum n => n ≠ 0
  | .jstr s => s ≠ ""
  | .jarr _ => true
  | .jobj _ => true

/-- Truthiness of a possibly-`undefined` property. -/
def jsTruthyOpt : Option JVal → Bool
  | none => false
  | some v => jsTruthy v

mutual

/-- JavaScript `String(v)` for a JSON value (array elements that are `null` render as
the empty string inside a joined array, per `Array.prototype.toString`). -/
def jsToString : JVal → String
  | .jnull => "null"
  | .jbool true => "true"
  | .jbool false => "false"
  | .jnum n => toString n
  | .jstr s => s
  | .jarr l => String.intercalate "," (jsArrStrings l)
  | .jobj _ => "[object Object]"

def jsArrStrings : List JVal → List String
  | [] => []
  | .jnull :: rest => "" :: jsArrStrings rest
  | v :: rest => jsToString v :: jsArrStrings rest

end

/-- The `type` field when it is a string, else `none`. -/
def typeStr : JVal → Option String
  | v =>
    match jsFieldD v "type" with
    | some (.jstr s) => some s
    | _ => none

def isJNull : JVal → Bool
  | .jnull => true
  | _ => false

/-! ## Per-connection subscription state
(`wss.on('connection')`, ws-gateway.js lines 62-109)

The connection state is the `ws._streams` map (insertion-ordered, as a
JavaScript `Map`) together with a fresh-id counter standing for allocation
of new `AbortController`s, and a chronological trace of the observable
actions: cancellation signals (`ctrl.abort()`), pump creation/start
(`attachSSE`'s synchronous prefix, which registers the new entry before the
first `await`), table deletions, and the one-shot run of a terminated
pump's `finally` cleanup. -/

structure PumpEntry where
  pid : Nat
  replay : Bool
deriving DecidableEq

inductive Ev where
  /-- `stream.ctrl.abort()` was called on the pump with this id. -/
  | cancel : Nat → Ev
  /-- A pump with this id was created, started and registered for this chat
  id with this replay flag. -/
  | start : Nat → String → Bool → Ev
  /-- The table entry for this chat id, holding this pump id, was removed. -/
  | del : String → Nat → Ev
  /-- The `finally` cleanup of the pump with this id ran. -/
  | cleaned : Nat → Ev
deriving DecidableEq

structure Conn where
  nextId : Nat
  table : List (String × PumpEntry)
  trace : List Ev
deriving DecidableEq

def conn0 : Conn := ⟨0, [], []⟩

/-- JavaScript `Map.delete(c)`. -/
def mdelete (c : String) (t : List (String × PumpEntry)) :
    List (String × PumpEntry) :=
  t.filter fun p => p.1 ≠ c

/-- JavaScript `Map.set(c, e)`: update in place if the key exists, else append. -/
def mset (c : String) (e : PumpEntry) (t : List (String × PumpEntry)) :
    List (String × PumpEntry) :=
  if (t.lookup c).isSome then t.map fun p => if p.1 = c then (c, e) else p
  else t ++ [(c, e)]

/-- The synchronous prefix of `attachSSE(ws, chatId, replay)` (lines 34-38):
allocate an `AbortController`, register the entry in `ws._streams`, and
start the upstream request. -/
def attachStart (c : String) (replay : Bool) (σ : Conn) : Conn :=
  { nextId := σ.nextId + 1
    table := mset c ⟨σ.nextId, replay⟩ σ.table
    trace := σ.trace ++ [.start σ.nextId c replay] }

/-- The `subscribe` branch of the message handler (lines 91-99): abort and
remove any existing pump for the chat id, then attach a new one with
`replay` hard-coded to `true`. -/
def subscribeOp (c : String) (σ : Conn) : Conn :=
  match σ.table.lookup c with
  | some e =>
    attachStart c true
      { σ with table := mdelete c σ.table
               trace := σ.trace ++ [.cancel e.pid, .del c e.pid] }
  | none => attachStart c true σ

/-- The removal loop of `subscribeMany` (lines 68-73), iterating over the
entries present when the loop starts (each iteration deletes at most the
entry it is visiting, so the live `Map` iterator sees exactly this list). -/
def removeLoop : List (String × PumpEntry) → List String → Conn → Conn
  | [], _, σ => σ
  | (c, e) :: rest, next, σ =>
    if c ∈ next then removeLoop rest next σ
    else
      removeLoop rest next
        { σ with table := mdelete c σ.table
                 trace := σ.trace ++ [.cancel e.pid, .del c e.pid] }

/-- The addition loop of `subscribeMany` (lines 74-77).  The source iterates
a `Set` built from the list; since an id already registered is skipped
(`if (ws._streams.has(chatId)) continue`) and each attach registers its id,
iterating the underlying list is equivalent to iterating the de-duplicated
set. -/
def addLoop : List String → Bool → Conn → Conn
  | [], _, σ => σ
  | c :: rest, r, σ =>
    if (σ.table.lookup c).isSome then addLoop rest r σ
    else addLoop rest r (attachStart c r σ)

/-- The function `subscribeMany(chatIds, replay)` (lines 66-78): drop falsy (empty) ids,
cancel and remove every registered pump whose id is not in the new set,
then attach a pump for every id in the new set not yet registered. -/
def subscribeManyOp (chatIds : List String) (replay : Bool) (σ : Conn) : Conn :=
  let next := chatIds.filter fun c => c ≠ ""
  addLoop next replay (removeLoop σ.table next σ)

/-- The `close` handler (lines 103-108): abort every registered pump, then
clear the table. -/
def closeOp (σ : Conn) : Conn :=
  { σ with table := []
           trace := σ.trace ++ (σ.table.map fun p => Ev.cancel p.2.pid)
             ++ (σ.table.map fun p => Ev.del p.1 p.2.pid) }

/-- The `finally` block of `attachSSE` (lines 56-58) for the pump with id
`pid` that was started for chat id `c`: it deletes whatever entry is
currently registered under `c` — without checking that the entry is its
own. -/
def cleanupOp (pid : Nat) (c : String) (σ : Conn) : Conn :=
  match σ.table.lookup c with
  | some e =>
    { σ with table := mdelete c σ.table
             trace := σ.trace ++ [.del c e.pid, .cleaned pid] }
  | none => { σ with trace := σ.trace ++ [.cleaned pid] }

/-- JavaScript `Array.isArray(msg.chatIds)` on a possibly-`undefined` property. -/
def isJArr : Option JVal → Bool
  | some (.jarr _) => true
  | _ => false

/-- The elements of an array-valued property (only used under `isJArr`). -/
def arrElems : Option JVal → List JVal
  | some (.jarr l) => l
  | _ => []

/-- The `message` handler (lines 80-101): two guarded dispatch tests with
fall-through to silently ignoring the message.  `none` is a text that
`JSON.parse` rejects (caught, message dropped).  `msg.type` on a parsed
`null` throws a `TypeError` outside the `try`, crashing the handler,
modelled as `none` in the result. -/
def handleMessage (m : Option JVal) (σ : Conn) : Option Conn :=
  match m with
  | none => some σ
  | some .jnull => none
  | some msg =>
    if typeStr msg = some "subscribeMany" ∧ isJArr (jsFieldD msg "chatIds") then
      some (subscribeManyOp ((arrElems (jsFieldD msg "chatIds")).map jsToString)
        (jsTruthyOpt (jsFieldD msg "replay")) σ)
    else if typeStr msg = some "subscribe" ∧ jsTruthyOpt (jsFieldD msg "chatId") then
      some (subscribeOp (jsToString ((jsFieldD msg "chatId").getD .jnull)) σ)
    else some σ

/-- For any parsed non-`null` message, the handler is the two-test
dispatch. -/
theorem handleMessage_some_eq (v : JVal) (hv : isJNull v = false) (σ : Conn) :
    handleMessage (some v) σ =
      if typeStr v = some "subscribeMany" ∧ isJArr (jsFieldD v "chatIds") then
        some (subscribeManyOp ((arrElems (jsFieldD v "chatIds")).map jsToString)
          (jsTruthyOpt (jsFieldD v "replay")) σ)
      else if typeStr v = some "subscribe" ∧ jsTruthyOpt (jsFieldD v "chatId") then
        some (subscribeOp (jsToString ((jsFieldD v "chatId").getD .jnull)) σ)
      else some σ := by
  cases v with
  | jnull => simp [isJNull] at hv
  | jbool b => rfl
  | jnum n => rfl
  | jstr s => rfl
  | jarr l => rfl
  | jobj fs => rfl

/-- One scheduling step of a connection: an inbound control message handled
to completion, the `finally` cleanup of a pump whose upstream ended,
errored or was aborted (it can fire at any time after the pump started and
runs exactly once), or the socket closing. -/
inductive Step : Conn → Conn → Prop where
  | msg (σ : Conn) (m : Option JVal) (σ' : Conn)
      (h : handleMessage m σ = some σ') : Step σ σ'
  | cleanup (σ : Conn) (pid : Nat) (c : String) (r : Bool)
      (hs : Ev.start pid c r ∈ σ.trace) (hc : Ev.cleaned pid ∉ σ.trace) :
      Step σ (cleanupOp pid c σ)
  | close (σ : Conn) : Step σ (closeOp σ)

inductive Reachable : Conn → Prop where
  | init : Reachable conn0
  | step {σ σ' : Conn} : Reachable σ → Step σ σ' → Reachable σ'

def cancelledPids (tr : List Ev) : List Nat :=
  tr.filterMap fun e => match e with | .cancel p => some p | _ => none

def cleanedPids (tr : List Ev) : List Nat :=
  tr.filterMap fun e => match e with | .cleaned p => some p | _ => none

/-- The pumps for chat id `c` that are live: started, never cancelled, and
whose upstream processing has not terminated (cleanup has not run). -/
def livePumpsFor (c : String) (tr : List Ev) : List Nat :=
  tr.filterMap fun e =>
    match e with
    | .start p c' _ =>
      if c' = c ∧ p ∉ cancelledPids tr ∧ p ∉ cleanedPids tr then some p
      else none
    | _ => none

/-! ### Association-list lemmas for the subscription table -/

theorem lookup_append (c : String) (t1 t2 : List (String × PumpEntry)) :
    (t1 ++ t2).lookup c
      = match t1.lookup c with
        | some v => some v
        | none => t2.lookup c := by
  induction t1 with
  | nil => simp
  | cons p rest ih =>
    obtain ⟨k, v⟩ := p
    rw [List.cons_append, List.lookup_cons, List.lookup_cons]
    cases hk : (c == k) with
    | true => rfl
    | false => exact ih

theorem lookup_mdelete_self (c : String) (t : List (String × PumpEntry)) :
    (mdelete c t).lookup c = none := by
  induction t with
  | nil => rfl
  | cons p rest ih =>
    obtain ⟨k, v⟩ := p
    rw [mdelete, List.filter_cons]
    by_cases hk : k = c
    · subst hk
      simpa [mdelete] using ih
    · rw [if_pos (by simpa using hk), List.lookup_cons]
      have : (c == k) = false := beq_eq_false_iff_ne.mpr (Ne.symm hk)
      rw [this]
      exact ih

theorem mdelete_of_lookup_none {c : String} {t : List (String × PumpEntry)}
    (h : t.lookup c = none) : mdelete c t = t := by
  induction t with
  | nil => rfl
  | cons p rest ih =>
    obtain ⟨k, v⟩ := p
    rw [List.lookup_cons] at h
    cases hk : (c == k) with
    | true => rw [hk] at h; simp at h
    | false =>
      rw [hk] at h
      have hne : k ≠ c := fun hEq => by simp [hEq] at hk
      rw [mdelete, List.filter_cons, if_pos (by simpa using hne)]
      rw [show rest.filter (fun p => p.1 ≠ c) = mdelete c rest from rfl, ih h]

theorem mset_of_lookup_none {c : String} (e : PumpEntry)
    {t : List (String × PumpEntry)} (h : t.lookup c = none) :
    mset c e t = t ++ [(c, e)] := by
  rw [mset, h]
  rfl

/-! ### C2 and C3: the unguarded `finally` cleanup -/

/-- C2 (code bug): the state reached by `subscribe a`, `subscribe a` again
(which aborts pump 0 and registers pump 1), then pump 0's `finally` cleanup
(which fires once pump 0's aborted request rejects — necessarily after the
handler that registered pump 1 returned), then `subscribe a` once more, has
TWO live pumps (started, never cancelled, never terminated) for the single
session id `a`: the cleanup deleted pump 1's table entry without cancelling
pump 1, so the third subscribe found no entry to cancel and started pump 2
alongside the still-running pump 1. -/
theorem C2_two_live_pumps :
    Reachable (subscribeOp "a" (cleanupOp 0 "a"
      (subscribeOp "a" (subscribeOp "a" conn0)))) ∧
    livePumpsFor "a" (subscribeOp "a" (cleanupOp 0 "a"
      (subscribeOp "a" (subscribeOp "a" conn0)))).trace = [1, 2] := by
  constructor
  · have s1 : Step conn0 (subscribeOp "a" conn0) :=
      Step.msg conn0 (some (.jobj [("type", .jstr "subscribe"),
        ("chatId", .jstr "a"), ("replay", .jbool true)])) _ (by decide)
    have s2 : Step (subscribeOp "a" conn0)
        (subscribeOp "a" (subscribeOp "a" conn0)) :=
      Step.msg _ (some (.jobj [("type", .jstr "subscribe"),
        ("chatId", .jstr "a"), ("replay", .jbool true)])) _ (by decide)
    have s3 : Step (subscribeOp "a" (subscribeOp "a" conn0))
        (cleanupOp 0 "a" (subscribeOp "a" (subscribeOp "a" conn0))) :=
      Step.cleanup _ 0 "a" true (by decide) (by decide)
    have s4 : Step (cleanupOp 0 "a" (subscribeOp "a" (subscribeOp "a" conn0)))
        (subscribeOp "a" (cleanupOp 0 "a"
          (subscribeOp "a" (subscribeOp "a" conn0)))) :=
      Step.msg _ (some (.jobj [("type", .jstr "subscribe"),
        ("chatId", .jstr "a"), ("replay", .jbool true)])) _ (by decide)
    exact Reachable.step (Reachable.step (Reachable.step
      (Reachable.step Reachable.init s1) s2) s3) s4
  · decide

/-- C3 (code bug): after `subscribe a` was issued twice (pump 0 cancelled
and replaced by pump 1) and pump 0's `finally` cleanup ran, the cleanup has
removed the table entry even though it had already been replaced: the table
no longer registers `a` although pump 1 is still live and was never
cancelled.  The claim's guard "only if the entry has not already been
replaced" is absent from the code. -/
theorem C3_cleanup_deletes_replacement :
    Reachable (cleanupOp 0 "a" (subscribeOp "a" (subscribeOp "a" conn0))) ∧
    (cleanupOp 0 "a" (subscribeOp "a" (subscribeOp "a" conn0))).table.lookup "a"
      = none ∧
    livePumpsFor "a" (cleanupOp 0 "a"
      (subscribeOp "a" (subscribeOp "a" conn0))).trace = [1] := by
  refine ⟨?_, by decide, by decide⟩
  have s1 : Step conn0 (subscribeOp "a" conn0) :=
    Step.msg conn0 (some (.jobj [("type", .jstr "subscribe"),
      ("chatId", .jstr "a"), ("replay", .jbool true)])) _ (by decide)
  have s2 : Step (subscribeOp "a" conn0)
      (subscribeOp "a" (subscribeOp "a" conn0)) :=
    Step.msg _ (some (.jobj [("type", .jstr "subscribe"),
      ("chatId", .jstr "a"), ("replay", .jbool true)])) _ (by decide)
  have s3 : Step (subscribeOp "a" (subscribeOp "a" conn0))
      (cleanupOp 0 "a" (subscribeOp "a" (subscribeOp "a" conn0))) :=
    Step.cleanup _ 0 "a" true (by decide) (by decide)
  exact Reachable.step (Reachable.step (Reachable.step Reachable.init s1) s2) s3

/-! ### C4: subscribe-single -/

/-- C4 counterexample: a subscribe message carrying `replay: false`
registers a pump whose replay flag is `true` — the handler passes a
hard-coded `true` to `attachSSE` and ignores the message's replay field,
so the new pump does not carry the replay flag of the message. -/
theorem C4_counterexample :
    jsTruthyOpt (jsFieldD (.jobj [("type", .jstr "subscribe"),
        ("chatId", .jstr "a"), ("replay", .jbool false)]) "replay") = false ∧
    (handleMessage (some (.jobj [("type", .jstr "subscribe"),
        ("chatId", .jstr "a"), ("replay", .jbool false)])) conn0).bind
      (fun σ => (σ.table.lookup "a").map PumpEntry.replay) = some true := by
  decide

/-- C4 (amended): for every subscribe message with a non-empty chat id `c`,
the handler runs `subscribeOp c`: if a pump already exists for `c` it is
cancelled first — exactly one cancellation signal, issued before the entry
is removed — and then exactly one new pump is created, started and
registered under `c`, but always with replay flag `true`: the message's
replay field is ignored by the subscribe-single path. -/
theorem C4_subscribe_restarts (σ : Conn) (c : String) (rv : JVal)
    (hc : c ≠ "") :
    handleMessage (some (.jobj [("type", .jstr "subscribe"),
        ("chatId", .jstr c), ("replay", rv)])) σ = some (subscribeOp c σ) ∧
    (subscribeOp c σ).table.lookup c = some ⟨σ.nextId, true⟩ ∧
    (subscribeOp c σ).trace = σ.trace ++
      (match σ.table.lookup c with
       | some e => [.cancel e.pid, .del c e.pid, .start σ.nextId c true]
       | none => [.start σ.nextId c true]) := by
  refine ⟨?_, ?_, ?_⟩
  · simp [handleMessage, typeStr, isJArr, arrElems, jsFieldD, lookupLast,
      jsTruthyOpt, jsTruthy, jsToString, hc]
  · cases hlk : σ.table.lookup c with
    | some e =>
      simp only [subscribeOp, hlk, attachStart]
      rw [mset_of_lookup_none _ (lookup_mdelete_self c σ.table), lookup_append,
        lookup_mdelete_self, List.lookup_cons]
      simp
    | none =>
      simp only [subscribeOp, hlk, attachStart]
      rw [mset_of_lookup_none _ hlk, lookup_append, hlk, List.lookup_cons]
      simp
  · cases hlk : σ.table.lookup c with
    | some e => simp [subscribeOp, hlk, attachStart]
    | none => simp [subscribeOp, hlk, attachStart]

/-- Witness for C4 (amended) at the empty connection: the registered pump
has id 0 and replay `true`. -/
theorem C4_witness :
    (subscribeOp "a" conn0).table.lookup "a" = some ⟨0, true⟩ :=
  (C4_subscribe_restarts conn0 "a" (.jbool false) (by decide)).2.1

/-! ### C6: disconnect teardown -/

def isCancelEv : Ev → Bool
  | .cancel _ => true
  | _ => false

/-- C6: closing a connection with K registered pumps issues exactly K
cancellation signals — one per registered pump, in table order, before the
entries are cleared — and leaves the subscription table empty. -/
theorem C6_close_cancels_all (σ : Conn) :
    (closeOp σ).table = [] ∧
    (closeOp σ).trace = σ.trace ++ (σ.table.map fun p => Ev.cancel p.2.pid)
        ++ (σ.table.map fun p => Ev.del p.1 p.2.pid) ∧
    ((closeOp σ).trace.filter isCancelEv).length
      = (σ.trace.filter isCancelEv).length + σ.table.length := by
  refine ⟨rfl, by rw [closeOp], ?_⟩
  rw [closeOp]
  simp [List.filter_append, List.filter_map, isCancelEv, Function.comp_def]

/-! ### C5: subscribeMany -/

/-- The cancellation-then-deletion event pairs emitted by the removal loop
for the given entries, in table order. -/
def cancelEvs (es : List (String × PumpEntry)) : List Ev :=
  es.flatMap fun p => [Ev.cancel p.2.pid, Ev.del p.1 p.2.pid]

/-- Start events for successive fresh pump ids. -/
def startEvs (n : Nat) (r : Bool) : List String → List Ev
  | [] => []
  | c :: cs => .start n c r :: startEvs (n + 1) r cs

/-- Table entries for successive fresh pump ids. -/
def newEntries (n : Nat) (r : Bool) : List String → List (String × PumpEntry)
  | [] => []
  | c :: cs => (c, ⟨n, r⟩) :: newEntries (n + 1) r cs

theorem removeLoop_spec (es : List (String × PumpEntry)) (next : List String) :
    ∀ σ : Conn,
    (removeLoop es next σ).nextId = σ.nextId ∧
    (removeLoop es next σ).trace
      = σ.trace ++ cancelEvs (es.filter fun p => ¬ p.1 ∈ next) ∧
    (removeLoop es next σ).table
      = σ.table.filter fun q => q.1 ∈ next ∨ ¬ q.1 ∈ es.map Prod.fst := by
  induction es with
  | nil =>
    intro σ
    refine ⟨rfl, by simp [removeLoop, cancelEvs], ?_⟩
    rw [removeLoop]
    exact (List.filter_eq_self.mpr fun a _ => by simp).symm
  | cons pe rest ih =>
    intro σ
    obtain ⟨c, e⟩ := pe
    rw [removeLoop]
    by_cases hc : c ∈ next
    · rw [if_pos hc]
      obtain ⟨h1, h2, h3⟩ := ih σ
      refine ⟨h1, ?_, ?_⟩
      · rw [h2, List.filter_cons_of_neg (by simpa using hc)]
      · rw [h3]
        apply List.filter_congr
        intro q _
        simp only [decide_eq_decide, List.map_cons, List.mem_cons]
        by_cases hqn : q.1 ∈ next
        · simp [hqn]
        · simp only [hqn, false_or]
          constructor
          · intro h
            rintro (hEq | hm)
            · exact hqn (hEq ▸ hc)
            · exact h hm
          · intro h hm
            exact h (Or.inr hm)
    · rw [if_neg hc]
      obtain ⟨h1, h2, h3⟩ := ih
        { σ with table := mdelete c σ.table
                 trace := σ.trace ++ [.cancel e.pid, .del c e.pid] }
      refine ⟨h1, ?_, ?_⟩
      · rw [h2]
        simp only
        rw [List.filter_cons_of_pos (by simpa using hc), List.append_assoc]
        rfl
      · rw [h3]
        simp only [mdelete, List.filter_filter]
        apply List.filter_congr
        intro q _
        simp only [← Bool.decide_and, decide_eq_decide, List.map_cons,
          List.mem_cons, ne_eq]
        constructor
        · rintro ⟨hOr | hOr, hne⟩
          · exact Or.inl hOr
          · exact Or.inr fun hIn => hIn.elim hne hOr
        · rintro (h | h)
          · exact ⟨Or.inl h, fun hEq => hc (hEq ▸ h)⟩
          · exact ⟨Or.inr fun hm => h (Or.inr hm), fun hEq => h (Or.inl hEq)⟩

theorem lookup_append_single_ne {d c : String} (e : PumpEntry)
    (t : List (String × PumpEntry)) (h : d ≠ c) :
    (t ++ [(c, e)]).lookup d = t.lookup d := by
  rw [lookup_append]
  cases t.lookup d with
  | some v => rfl
  | none =>
    rw [List.lookup_cons]
    have : (d == c) = false := beq_eq_false_iff_ne.mpr h
    rw [this]
    rfl

theorem addLoop_spec (cs : List String) (r : Bool) :
    ∀ σ : Conn, cs.Nodup →
    (addLoop cs r σ).nextId
      = σ.nextId + (cs.filter fun c => (σ.table.lookup c).isNone).length ∧
    (addLoop cs r σ).trace
      = σ.trace ++ startEvs σ.nextId r
          (cs.filter fun c => (σ.table.lookup c).isNone) ∧
    (addLoop cs r σ).table
      = σ.table ++ newEntries σ.nextId r
          (cs.filter fun c => (σ.table.lookup c).isNone) := by
  induction cs with
  | nil =>
    intro σ _
    exact ⟨rfl, by simp [addLoop, startEvs], by simp [addLoop, newEntries]⟩
  | cons c rest ih =>
    intro σ hnd
    have hcrest : c ∉ rest := (List.nodup_cons.mp hnd).1
    have hrest : rest.Nodup := (List.nodup_cons.mp hnd).2
    rw [addLoop]
    cases hlk : σ.table.lookup c with
    | some e =>
      rw [if_pos (by simp [hlk])]
      have hfc : (c :: rest).filter (fun d => (σ.table.lookup d).isNone)
          = rest.filter fun d => (σ.table.lookup d).isNone :=
        List.filter_cons_of_neg (by simp [hlk])
      rw [hfc]
      exact ih σ hrest
    | none =>
      rw [if_neg (by simp [hlk])]
      obtain ⟨h1, h2, h3⟩ := ih (attachStart c r σ) hrest
      have htab : (attachStart c r σ).table = σ.table ++ [(c, ⟨σ.nextId, r⟩)] := by
        rw [attachStart]
        exact mset_of_lookup_none _ hlk
      have hfc : (c :: rest).filter (fun d => (σ.table.lookup d).isNone)
          = c :: rest.filter fun d => (σ.table.lookup d).isNone :=
        List.filter_cons_of_pos (by simp [hlk])
      have hfilters : rest.filter (fun d => ((attachStart c r σ).table.lookup d).isNone)
          = rest.filter fun d => (σ.table.lookup d).isNone := by
        apply List.filter_congr
        intro d hd
        rw [htab, lookup_append_single_ne _ _ (show d ≠ c from fun hEq => hcrest (hEq ▸ hd))]
      rw [hfilters] at h1 h2 h3
      refine ⟨?_, ?_, ?_⟩
      · rw [h1, hfc, attachStart]
        simp only [List.length_cons]
        omega
      · rw [h2, hfc, attachStart]
        simp only
        rw [List.append_assoc]
        rfl
      · rw [h3, htab, hfc, attachStart]
        simp only
        rw [List.append_assoc]
        rfl

theorem lookup_filter_mem {c : String} {S : List String} (hc : c ∈ S) :
    ∀ t : List (String × PumpEntry),
    (t.filter fun q => q.1 ∈ S).lookup c = t.lookup c := by
  intro t
  induction t with
  | nil => rfl
  | cons p rest ih =>
    obtain ⟨k, v⟩ := p
    by_cases hk : k ∈ S
    · rw [List.filter_cons_of_pos (by simpa using hk), List.lookup_cons,
        List.lookup_cons]
      cases c == k with
      | true => rfl
      | false => exact ih
    · rw [List.filter_cons_of_neg (by simpa using hk), List.lookup_cons]
      have : (c == k) = false :=
        beq_eq_false_iff_ne.mpr fun hEq => hk (hEq ▸ hc)
      rw [this]
      exact ih

theorem lookup_newEntries_isSome {c : String} (r : Bool) :
    ∀ (cs : List String) (n : Nat), c ∈ cs →
    ((newEntries n r cs).lookup c).isSome = true := by
  intro cs
  induction cs with
  | nil => intro n h; simp at h
  | cons d rest ih =>
    intro n h
    rw [newEntries, List.lookup_cons]
    cases hk : (c == d) with
    | true => rfl
    | false =>
      have hne : c ≠ d := beq_eq_false_iff_ne.mp hk
      have hm : c ∈ rest := by
        rcases List.mem_cons.mp h with hEq | hm
        · exact absurd hEq hne
        · exact hm
      exact ih (n + 1) hm

theorem mem_newEntries_key {q : String × PumpEntry} (r : Bool) :
    ∀ (cs : List String) (n : Nat), q ∈ newEntries n r cs → q.1 ∈ cs := by
  intro cs
  induction cs with
  | nil => intro n h; simp [newEntries] at h
  | cons d rest ih =>
    intro n h
    rw [newEntries] at h
    rcases List.mem_cons.mp h with hEq | hm
    · subst hEq; exact List.mem_cons_self _ _
    · exact List.mem_cons_of_mem _ (ih (n + 1) hm)

theorem conn_eq_of_parts {σ1 σ2 : Conn} (h1 : σ1.nextId = σ2.nextId)
    (h2 : σ1.table = σ2.table) (h3 : σ1.trace = σ2.trace) : σ1 = σ2 := by
  cases σ1; cases σ2; simp_all

theorem subscribeManyOp_spec (S : List String) (r : Bool) (σ : Conn)
    (hSnd : S.Nodup) (hS : ∀ s ∈ S, s ≠ "") :
    (subscribeManyOp S r σ).nextId
      = σ.nextId + (S.filter fun c => (σ.table.lookup c).isNone).length ∧
    (subscribeManyOp S r σ).trace
      = σ.trace ++ cancelEvs (σ.table.filter fun p => ¬ p.1 ∈ S)
        ++ startEvs σ.nextId r (S.filter fun c => (σ.table.lookup c).isNone) ∧
    (subscribeManyOp S r σ).table
      = (σ.table.filter fun p => p.1 ∈ S)
        ++ newEntries σ.nextId r (S.filter fun c => (σ.table.lookup c).isNone) := by
  have hnext : (S.filter fun c => c ≠ "") = S :=
    List.filter_eq_self.mpr fun a ha => by simpa using hS a ha
  rw [subscribeManyOp]
  simp only [hnext]
  obtain ⟨r1, r2, r3⟩ := removeLoop_spec σ.table S σ
  have r3' : (removeLoop σ.table S σ).table = σ.table.filter fun p => p.1 ∈ S := by
    rw [r3]
    apply List.filter_congr
    intro q hq
    simp only [decide_eq_decide]
    have : q.1 ∈ σ.table.map Prod.fst := List.mem_map_of_mem Prod.fst hq
    simp [this]
  obtain ⟨a1, a2, a3⟩ := addLoop_spec S r (removeLoop σ.table S σ) hSnd
  have hfilters : (S.filter fun c => (((removeLoop σ.table S σ).table.lookup c).isNone))
      = S.filter fun c => (σ.table.lookup c).isNone := by
    apply List.filter_congr
    intro c hc
    rw [r3', lookup_filter_mem hc]
  rw [hfilters] at a1 a2 a3
  refine ⟨?_, ?_, ?_⟩
  · rw [a1, r1]
  · rw [a2, r2, r1, List.append_assoc]
  · rw [a3, r3', r1]

/-- C5: for a subscribeMany message carrying the id set `S` (pairwise
distinct, non-empty ids) against the current table: the emitted events are
exactly one cancellation (followed by the entry's deletion) for each
registered id not in `S`, in table order, followed by exactly one
pump start for each id of `S` not yet registered, in `S`-order with fresh
consecutive pump ids — in particular no cancellation for any id in both
sets; entries for ids in both sets are left untouched (same pump id, same
replay flag); and running the same subscribeMany again immediately is the
identity on the whole connection state. -/
theorem C5_subscribeMany (σ : Conn) (S : List String) (r : Bool)
    (hSnd : S.Nodup) (hS : ∀ s ∈ S, s ≠ "") :
    (subscribeManyOp S r σ).trace
      = σ.trace ++ cancelEvs (σ.table.filter fun p => ¬ p.1 ∈ S)
        ++ startEvs σ.nextId r (S.filter fun c => (σ.table.lookup c).isNone) ∧
    (subscribeManyOp S r σ).table
      = (σ.table.filter fun p => p.1 ∈ S)
        ++ newEntries σ.nextId r (S.filter fun c => (σ.table.lookup c).isNone) ∧
    (∀ c ∈ S, ∀ e, σ.table.lookup c = some e →
      (subscribeManyOp S r σ).table.lookup c = some e) ∧
    subscribeManyOp S r (subscribeManyOp S r σ) = subscribeManyOp S r σ := by
  obtain ⟨h1, h2, h3⟩ := subscribeManyOp_spec S r σ hSnd hS
  have hkeys : ∀ q ∈ (subscribeManyOp S r σ).table, q.1 ∈ S := by
    intro q hq
    rw [h3] at hq
    rcases List.mem_append.mp hq with hm | hm
    · simpa using (List.of_mem_filter hm)
    · exact List.mem_of_mem_filter (mem_newEntries_key r _ _ hm)
  have hlookups : ∀ c ∈ S, (((subscribeManyOp S r σ).table.lookup c).isNone) = false := by
    intro c hc
    rw [h3, lookup_append]
    cases hlk : σ.table.lookup c with
    | some e =>
      rw [lookup_filter_mem hc, hlk]
      rfl
    | none =>
      rw [lookup_filter_mem hc, hlk]
      have hmem : c ∈ S.filter fun d => (σ.table.lookup d).isNone :=
        List.mem_filter.mpr ⟨hc, by rw [hlk]; rfl⟩
      have := lookup_newEntries_isSome r _ σ.nextId hmem
      cases hln : (newEntries σ.nextId r
          (S.filter fun d => (σ.table.lookup d).isNone)).lookup c with
      | some v => rfl
      | none => rw [hln] at this; simp at this
  refine ⟨h2, h3, ?_, ?_⟩
  · intro c hc e he
    rw [h3, lookup_append, lookup_filter_mem hc, he]
  · obtain ⟨i1, i2, i3⟩ := subscribeManyOp_spec S r (subscribeManyOp S r σ) hSnd hS
    have hz : (S.filter fun c =>
        (((subscribeManyOp S r σ).table.lookup c).isNone)) = [] := by
      rw [List.filter_eq_nil_iff]
      intro c hc
      rw [hlookups c hc]
      simp
    have hcz : ((subscribeManyOp S r σ).table.filter fun p => ¬ p.1 ∈ S) = [] := by
      rw [List.filter_eq_nil_iff]
      intro q hq
      simp [hkeys q hq]
    apply conn_eq_of_parts
    · rw [i1, hz]
      rfl
    · rw [i3, hz]
      rw [show newEntries (subscribeManyOp S r σ).nextId r [] = [] from rfl,
        List.append_nil]
      exact List.filter_eq_self.mpr fun q hq => by simpa using hkeys q hq
    · rw [i2, hcz, hz]
      rw [show cancelEvs [] = [] from rfl,
        show startEvs (subscribeManyOp S r σ).nextId r [] = [] from rfl]
      simp

/-- Witness for C5: resyncing from table `{a, b}` to set `{b, c}` leaves the
pump registered for the overlapping id `b` untouched. -/
theorem C5_witness :
    (subscribeManyOp ["b", "c"] true
      ⟨2, [("a", ⟨0, false⟩), ("b", ⟨1, true⟩)], []⟩).table.lookup "b"
      = some ⟨1, true⟩ :=
  (C5_subscribeMany ⟨2, [("a", ⟨0, false⟩), ("b", ⟨1, true⟩)], []⟩ ["b", "c"]
    true (by decide) (by decide)).2.2.1 "b" (by decide) ⟨1, true⟩ rfl

/-! ### C7: malformed control messages -/

/-- A malformed inbound control message in the sense of the claim: text
that is not valid JSON (`none`), a parsed non-`null` value whose `type`
field is not the string `subscribe` or `subscribeMany` (in particular any
JSON object with an unrecognized type), a subscribe message with no
`chatId` field, or a subscribeMany message with no `chatIds` field. -/
def malformedMsg : Option JVal → Bool
  | none => true
  | some v =>
    !(isJNull v) &&
    ( ((typeStr v != some "subscribe") && (typeStr v != some "subscribeMany"))
      || ((typeStr v == some "subscribe") && !(jsFieldD v "chatId").isSome)
      || ((typeStr v == some "subscribeMany") && !(jsFieldD v "chatIds").isSome) )

/-- C7: every malformed control message — invalid JSON, an object with an
unrecognized type, or a subscribe/subscribeMany message missing its
required `chatId`/`chatIds` field — is ignored: the handler returns with
the connection state exactly unchanged (same table, same trace: no pump
started or cancelled) and sends nothing back to the client. -/
theorem jsTruthyOpt_of_isSome_false {o : Option JVal} (h : o.isSome = false) :
    jsTruthyOpt o = false := by
  cases o with
  | none => rfl
  | some v => simp at h

theorem isJArr_of_isSome_false {o : Option JVal} (h : o.isSome = false) :
    isJArr o = false := by
  cases o with
  | none => rfl
  | some v => simp at h

theorem C7_malformed_ignored (σ : Conn) (m : Option JVal)
    (h : malformedMsg m = true) :
    handleMessage m σ = some σ := by
  cases m with
  | none => rfl
  | some v =>
    simp only [malformedMsg, Bool.and_eq_true, Bool.or_eq_true,
      Bool.not_eq_true', bne_iff_ne, beq_iff_eq, ne_eq] at h
    obtain ⟨hnull, hcases⟩ := h
    rw [handleMessage_some_eq v hnull]
    rcases hcases with (⟨h1, h2⟩ | ⟨h1, h2⟩) | ⟨h1, h2⟩
    · rw [if_neg fun hand => h2 hand.1, if_neg fun hand => h1 hand.1]
    · rw [if_neg fun hand => by simp [h1] at hand,
        if_neg fun hand => Bool.false_ne_true
          ((jsTruthyOpt_of_isSome_false h2) ▸ hand.2)]
    · rw [if_neg fun hand => Bool.false_ne_true
          ((isJArr_of_isSome_false h2) ▸ hand.2),
        if_neg fun hand => by simp [h1] at hand]

/-- Witness for C7: an object message with the unrecognized type `ping`
leaves the fresh connection state untouched. -/
theorem C7_witness :
    handleMessage (some (.jobj [("type", .jstr "ping")])) conn0 = some conn0 :=
  C7_malformed_ignored conn0 (some (.jobj [("type", .jstr "ping")])) (by decide)

/-! ### C9: no envelopes after cancellation
(`attachSSE`, ws-gateway.js lines 34-58) -/

inductive PEv (α : Type) where
  /-- `ws.send` of one outbound envelope. -/
  | send : Envelope α → PEv α
  /-- `ctrl.abort()` was signalled on this pump's token. -/
  | cancelSig : PEv α
deriving DecidableEq

/-- A running pump: the parser remainder buffer, whether its token has been
signalled, and the chronological sequence of its observable events. -/
structure PumpState (α : Type) where
  buf : List Char
  cancelled : Bool
  events : List (PEv α)

/-- One scheduling step of a pump.  A `chunk` step is one resumption of the
`for await` loop: it parses the chunk against the carried buffer and sends
one envelope per decoded frame, synchronously (the loop body contains no
`await`).  Because the body is synchronous, `ctrl.abort()` can only run
while the pump is suspended at the chunk read, and an aborted body stream
delivers no further chunks — data already received and buffered upstream is
discarded with the stream — so chunk delivery is enabled only while the
token is unsignalled.  The `catch`/`finally` blocks of `attachSSE` send
nothing and do not flush the parser buffer, so termination adds no
events. -/
inductive PumpStep {α : Type} (decode : List Char → Option α) (cid : List Char) :
    PumpState α → PumpState α → Prop where
  | chunk (s : PumpState α) (c : List Char) (h : s.cancelled = false) :
      PumpStep decode cid s
        ⟨(parseSSEFrames (s.buf ++ c)).2, false,
         s.events ++ (framesToEnvelopes decode cid
           (parseSSEFrames (s.buf ++ c)).1).map PEv.send⟩
  | cancel (s : PumpState α) (h : s.cancelled = false) :
      PumpStep decode cid s ⟨s.buf, true, s.events ++ [PEv.cancelSig]⟩

inductive PumpReach {α : Type} (decode : List Char → Option α) (cid : List Char) :
    PumpState α → Prop where
  | init : PumpReach decode cid ⟨[], false, []⟩
  | step {s s' : PumpState α} : PumpReach decode cid s →
      PumpStep decode cid s s' → PumpReach decode cid s'

def isSendEv {α : Type} : PEv α → Bool
  | .send _ => true
  | .cancelSig => false

theorem snoc_eq_append_cons {α : Type} {l t1 t2 : List α} {x : α} (hx : x ∉ l)
    (h : l ++ [x] = t1 ++ x :: t2) : t2 = [] := by
  induction l generalizing t1 with
  | nil =>
    cases t1 with
    | nil =>
      simp only [List.nil_append] at h
      injection h with h1 h2
      exact h2.symm
    | cons a t1' =>
      simp only [List.nil_append, List.cons_append] at h
      injection h with h1 h2
      rcases List.append_eq_nil.mp h2.symm with ⟨-, h3⟩
      exact absurd h3 (List.cons_ne_nil _ _)
  | cons b l' ih =>
    have hxb : x ≠ b := fun hEq => hx (hEq ▸ List.mem_cons_self b l')
    have hxl : x ∉ l' := fun hm => hx (List.mem_cons_of_mem b hm)
    cases t1 with
    | nil =>
      simp only [List.cons_append, List.nil_append] at h
      injection h with h1 h2
      exact absurd h1.symm hxb
    | cons a t1' =>
      simp only [List.cons_append] at h
      injection h with h1 h2
      exact ih hxl h2

theorem pump_inv {α : Type} (decode : List Char → Option α) (cid : List Char)
    (s : PumpState α) (h : PumpReach decode cid s) :
    (s.cancelled = false → PEv.cancelSig ∉ s.events) ∧
    (∀ t1 t2 : List (PEv α), s.events = t1 ++ PEv.cancelSig :: t2 → t2 = []) := by
  induction h with
  | init =>
    refine ⟨fun _ => by simp, fun t1 t2 ht => ?_⟩
    have ht' : ([] : List (PEv α)) = t1 ++ PEv.cancelSig :: t2 := ht
    rcases List.append_eq_nil.mp ht'.symm with ⟨-, h2⟩
    exact absurd h2 (List.cons_ne_nil _ _)
  | @step s s' hreach hstep ih =>
    cases hstep with
    | chunk c hc =>
      have hnosig : PEv.cancelSig ∉ s.events
          ++ (framesToEnvelopes decode cid
            (parseSSEFrames (s.buf ++ c)).1).map PEv.send := by
        intro hm
        rcases List.mem_append.mp hm with hm | hm
        · exact ih.1 hc hm
        · obtain ⟨env, -, hEq⟩ := List.mem_map.mp hm
          exact PEv.noConfusion hEq
      refine ⟨fun _ => hnosig, fun t1 t2 ht => ?_⟩
      have ht' : s.events ++ (framesToEnvelopes decode cid
          (parseSSEFrames (s.buf ++ c)).1).map PEv.send
          = t1 ++ PEv.cancelSig :: t2 := ht
      have hmem : PEv.cancelSig ∈ s.events ++ (framesToEnvelopes decode cid
          (parseSSEFrames (s.buf ++ c)).1).map PEv.send := by
        rw [ht']
        exact List.mem_append_right _ (List.mem_cons_self _ _)
      exact absurd hmem hnosig
    | cancel hc =>
      refine ⟨fun hfalse => Bool.noConfusion hfalse, fun t1 t2 ht => ?_⟩
      exact snoc_eq_append_cons (ih.1 hc) ht

/-- C9: once a pump's cancellation token is signalled, the pump emits no
further outbound envelopes: in every reachable pump execution, the part of
the event sequence after the cancellation signal contains no send — even
though upstream chunks may have been received and buffered but not yet
processed when the token was signalled, since processing a chunk is only
possible while the token is unsignalled and the terminated pump's
`catch`/`finally` blocks emit nothing. -/
theorem C9_no_send_after_cancel {α : Type} (decode : List Char → Option α)
    (cid : List Char) (s : PumpState α) (h : PumpReach decode cid s)
    (t1 t2 : List (PEv α)) (hsplit : s.events = t1 ++ PEv.cancelSig :: t2) :
    t2.filter isSendEv = [] := by
  rw [(pump_inv decode cid s h).2 t1 t2 hsplit]
  rfl

def decodeC9 : List Char → Option Nat :=
  fun l => if l = ['o', 'k'] then some 0 else none

/-- Witness for C9: a pump that received the chunk `data:ok\n\n`, forwarded
its one envelope, and was then cancelled, has no send after the
cancellation signal in its event sequence. -/
theorem C9_witness :
    ([] : List (PEv Nat)).filter isSendEv = [] :=
  C9_no_send_after_cancel decodeC9 ['a']
    ⟨[], true, [PEv.send ⟨['a'], defaultEventName, 0⟩, PEv.cancelSig]⟩
    (PumpReach.step (PumpReach.step PumpReach.init
      (PumpStep.chunk ⟨[], false, []⟩
        ['d', 'a', 't', 'a', ':', 'o', 'k', '\n', '\n'] rfl))
      (PumpStep.cancel _ rfl))
    [PEv.send ⟨['a'], defaultEventName, 0⟩] [] rfl

end Gateway
